import Mathlib

/-!
# Verification of the batched CRF layer (`baseline/pytorch/crf.py`)

This file gives a shallow embedding, over the real numbers, of the CRF layer:
the forward (log-partition) recursion `CRF.forward`, the gold-path scorer
`CRF.score_sentence`, the loss `CRF.neg_log_loss`, the Viterbi decoder
`viterbi` / `CRF.decode`, the effective-transition accessor `CRF.transitions`
and the constructor `CRF.__init__`.

Conventions, matching the source:
* scores are real numbers (the float tensors of the source, idealized);
* `trans i j` is the score of transitioning INTO tag `i` FROM tag `j`
  (the source indexes `trans[next, prev]`);
* emissions are time-major: `unary t b i` is the score of tag `i` for batch
  element `b` at time step `t`; the tensor has `T` rows and the DP loops run
  over `t = 0, …, T-1`;
* the large negative sentinel `-1e4` of the source is the real number
  `-10000`.

The helpers `vec_log_sum_exp` and `sequence_mask` are imported by the source
from `baseline.pytorch.torchy`, which is not part of the sources at hand;
they are modelled from the spec where they are first defined below.
-/

namespace BaselineCRF

/- Scores live in `ℝ` because the forward recursion is built from `Real.exp`
and `Real.log`; consequently the whole development is `noncomputable` in the
kernel-evaluation sense, and concrete instances are handled symbolically. -/
noncomputable section

open Finset

/-! ## Definitions -/

/-- The large negative sentinel `-1e4` used by the source for unreachable
states and masked transitions. -/
def sentinel : ℝ := -10000

/-- Modelled from the spec: `vec_log_sum_exp` (from `baseline.pytorch.torchy`,
not among the sources) computes a log-sum-exp reduction with the standard
max-subtraction trick; over the reals this is exactly the log of the sum of
exponentials. -/
def logSumExp {n : ℕ} (v : Fin n → ℝ) : ℝ :=
  Real.log (∑ j, Real.exp (v j))

/-- The initial alpha vector of both DP recursions: `0` at the start tag and
the sentinel everywhere else (source lines 119-120 and 181-182). -/
def alphaInit {n : ℕ} (startIdx : Fin n) : Fin n → ℝ :=
  fun i => if i = startIdx then 0 else sentinel

/-- The arg-max over all tags of a score vector, as computed by `torch.max`:
the first (lowest) index achieving the maximum.  `i0` is a fallback for the
degenerate `n = 0` case, which never occurs (a start tag always exists). -/
def argmaxTag {n : ℕ} (i0 : Fin n) (f : Fin n → ℝ) : Fin n :=
  ((List.finRange n).argmax f).getD i0

/-- The max over all tags of a score vector, as computed by `torch.max`.
The tag `i0` only witnesses that there is at least one tag. -/
def maxTag {n : ℕ} (i0 : Fin n) (f : Fin n → ℝ) : ℝ :=
  Finset.univ.sup' ⟨i0, Finset.mem_univ i0⟩ f

/-! ### Per-element views of the two DP recursions

The source runs both recursions over a whole batch at once, blending frozen
and updated state with `masked_fill` (see the batched definitions further
down, which mirror the source text and are proved to project onto the
per-element functions below).  Per batch element the selection outcome is:
update while `t < length`, freeze afterwards. -/

/-- Per-element forward alphas after `t` loop iterations (`CRF.forward`,
source lines 119-142): update with the log-sum-exp recursion while
`t < L`, keep the previous value afterwards. -/
def fwdAlpha {n : ℕ} (trans : Fin n → Fin n → ℝ) (startIdx : Fin n)
    (unary : ℕ → Fin n → ℝ) (L : ℕ) : ℕ → Fin n → ℝ
  | 0 => alphaInit startIdx
  | t + 1 => fun i =>
      if t < L then
        logSumExp (fun j => fwdAlpha trans startIdx unary L t j + trans i j)
          + unary t i
      else fwdAlpha trans startIdx unary L t i

/-- Per-element forward result (`CRF.forward`, source lines 144-146): run `T`
loop iterations, add the transition into the end tag, reduce by
log-sum-exp. -/
def fwdScore {n : ℕ} (trans : Fin n → Fin n → ℝ) (startIdx endIdx : Fin n)
    (unary : ℕ → Fin n → ℝ) (L T : ℕ) : ℝ :=
  logSumExp (fun i => fwdAlpha trans startIdx unary L T i + trans endIdx i)

/-- Initial Viterbi state (source lines 181-183): the same `alphaInit`, run
through log-softmax when `norm` is set (`decode` always passes
`norm = False`). -/
def vitInit {n : ℕ} (startIdx : Fin n) (norm : Bool) : Fin n → ℝ :=
  if norm then fun i => alphaInit startIdx i - logSumExp (alphaInit startIdx)
  else alphaInit startIdx

/-- Per-element Viterbi alphas after `t` loop iterations (`viterbi`, source
lines 185-195): the max-based analogue of `fwdAlpha`. -/
def vitAlpha {n : ℕ} (trans : Fin n → Fin n → ℝ) (startIdx : Fin n)
    (norm : Bool) (unary : ℕ → Fin n → ℝ) (L : ℕ) : ℕ → Fin n → ℝ
  | 0 => vitInit startIdx norm
  | t + 1 => fun i =>
      if t < L then
        maxTag startIdx
            (fun j => vitAlpha trans startIdx norm unary L t j + trans i j)
          + unary t i
      else vitAlpha trans startIdx norm unary L t i

/-- Per-element back-pointer recorded at loop iteration `t` (source lines
186-188): for each candidate current tag, the arg-max previous tag. -/
def vitBp {n : ℕ} (trans : Fin n → Fin n → ℝ) (startIdx : Fin n) (norm : Bool)
    (unary : ℕ → Fin n → ℝ) (L : ℕ) (t : ℕ) (tag : Fin n) : Fin n :=
  argmaxTag startIdx
    (fun j => vitAlpha trans startIdx norm unary L t j + trans tag j)

/-- Per-element last decoded tag: the arg-max of the terminal scores (source
lines 197-199). -/
def vitLast {n : ℕ} (trans : Fin n → Fin n → ℝ) (startIdx endIdx : Fin n)
    (norm : Bool) (unary : ℕ → Fin n → ℝ) (L T : ℕ) : Fin n :=
  argmaxTag startIdx
    (fun i => vitAlpha trans startIdx norm unary L T i + trans endIdx i)

/-- Per-element best-path score: the max of the terminal scores (source lines
197-199). -/
def vitScore {n : ℕ} (trans : Fin n → Fin n → ℝ) (startIdx endIdx : Fin n)
    (norm : Bool) (unary : ℕ → Fin n → ℝ) (L T : ℕ) : ℝ :=
  maxTag startIdx
    (fun i => vitAlpha trans startIdx norm unary L T i + trans endIdx i)

/-- Per-element backward walk (source lines 201-210): `vitWalk k` is the
value of `best_tag_id` after `k` iterations of the reconstruction loop.
Iteration `i` follows the back-pointer recorded at forward step `T - 1 - i`
when `i` has passed the element's reverse length `T - L - 1` (an integer,
`-1` when `L = T`), and otherwise holds; the source's integer blend
`masked_fill(mask, 0) + masked_fill(mask == 0, 0)` selects exactly the
non-zeroed side. -/
def vitWalk {n : ℕ} (trans : Fin n → Fin n → ℝ) (startIdx endIdx : Fin n)
    (norm : Bool) (unary : ℕ → Fin n → ℝ) (L T : ℕ) : ℕ → Fin n
  | 0 => vitLast trans startIdx endIdx norm unary L T
  | i + 1 =>
      if (T : ℤ) - (L : ℤ) - 1 < (i : ℤ) then
        vitBp trans startIdx norm unary L (T - 1 - i)
          (vitWalk trans startIdx endIdx norm unary L T i)
      else vitWalk trans startIdx endIdx norm unary L T i

/-- Per-element decoded path (source lines 201-218): collect the `T + 1`
values of `best_tag_id` (initial value plus one per loop iteration), pop the
last, reverse into forward time order, and truncate to the true length. -/
def vitPath {n : ℕ} (trans : Fin n → Fin n → ℝ) (startIdx endIdx : Fin n)
    (norm : Bool) (unary : ℕ → Fin n → ℝ) (L T : ℕ) : List (Fin n) :=
  ((((List.range (T + 1)).map
    (vitWalk trans startIdx endIdx norm unary L T)).dropLast).reverse).take L

/-! ### Batched definitions, mirroring the source text

The source processes the whole batch at once.  Per loop iteration `i` it
computes the updated state for every element and then, once `i` has reached
`min(lengths)`, blends frozen and updated state per element with two
`masked_fill`s and an addition (source lines 136-142 and 191-195). -/

/-- The value `torch.min(lengths)` (source lines 117 and 177).  The batch is
never empty where this is used; `0` is a junk value for `B = 0`. -/
def minLength {B : ℕ} (lengths : Fin B → ℕ) : ℕ :=
  if h : (Finset.univ : Finset (Fin B)).Nonempty then Finset.univ.inf' h lengths
  else 0

/-- Batched forward alphas after `i` loop iterations (`CRF.forward`, source
lines 119-142).  The `masked_fill` blend `alphas.masked_fill(mask, 0) +
new_alphas.masked_fill(mask == 0, 0)` is rendered as the sum of the two
zero-filled selections. -/
def fwdAlphas {n B : ℕ} (trans : Fin n → Fin n → ℝ) (startIdx : Fin n)
    (lengths : Fin B → ℕ) (unary : ℕ → Fin B → Fin n → ℝ) :
    ℕ → Fin B → Fin n → ℝ
  | 0 => fun _ => alphaInit startIdx
  | i + 1 => fun b tag =>
      let prev := fwdAlphas trans startIdx lengths unary i
      let newA : Fin B → Fin n → ℝ := fun b tag =>
        logSumExp (fun j => prev b j + trans tag j) + unary i b tag
      if minLength lengths ≤ i then
        (if i < lengths b then (0 : ℝ) else prev b tag)
          + (if i < lengths b then newA b tag else 0)
      else newA b tag

/-- Batched forward result for element `b` (`CRF.forward`, source lines
144-146). -/
def fwdScoreB {n B : ℕ} (trans : Fin n → Fin n → ℝ) (startIdx endIdx : Fin n)
    (lengths : Fin B → ℕ) (unary : ℕ → Fin B → Fin n → ℝ) (T : ℕ)
    (b : Fin B) : ℝ :=
  logSumExp (fun i => fwdAlphas trans startIdx lengths unary T b i
    + trans endIdx i)

/-- Batched Viterbi alphas after `i` loop iterations (`viterbi`, source lines
181-195), with the same blend discipline as `fwdAlphas`. -/
def vitAlphas {n B : ℕ} (trans : Fin n → Fin n → ℝ) (startIdx : Fin n)
    (norm : Bool) (lengths : Fin B → ℕ) (unary : ℕ → Fin B → Fin n → ℝ) :
    ℕ → Fin B → Fin n → ℝ
  | 0 => fun _ => vitInit startIdx norm
  | i + 1 => fun b tag =>
      let prev := vitAlphas trans startIdx norm lengths unary i
      let newA : Fin B → Fin n → ℝ := fun b tag =>
        maxTag startIdx (fun j => prev b j + trans tag j) + unary i b tag
      if minLength lengths ≤ i then
        (if i < lengths b then (0 : ℝ) else prev b tag)
          + (if i < lengths b then newA b tag else 0)
      else newA b tag

/-- Batched back-pointers recorded at loop iteration `i` (source lines
186-188). -/
def vitBpB {n B : ℕ} (trans : Fin n → Fin n → ℝ) (startIdx : Fin n)
    (norm : Bool) (lengths : Fin B → ℕ) (unary : ℕ → Fin B → Fin n → ℝ)
    (i : ℕ) (b : Fin B) (tag : Fin n) : Fin n :=
  argmaxTag startIdx
    (fun j => vitAlphas trans startIdx norm lengths unary i b j + trans tag j)

/-- Batched last decoded tag for element `b` (source lines 197-199). -/
def vitLastB {n B : ℕ} (trans : Fin n → Fin n → ℝ) (startIdx endIdx : Fin n)
    (norm : Bool) (lengths : Fin B → ℕ) (unary : ℕ → Fin B → Fin n → ℝ)
    (T : ℕ) (b : Fin B) : Fin n :=
  argmaxTag startIdx
    (fun i => vitAlphas trans startIdx norm lengths unary T b i
      + trans endIdx i)

/-- Batched best-path score for element `b` (source lines 197-199 and
219). -/
def vitScoreB {n B : ℕ} (trans : Fin n → Fin n → ℝ) (startIdx endIdx : Fin n)
    (norm : Bool) (lengths : Fin B → ℕ) (unary : ℕ → Fin B → Fin n → ℝ)
    (T : ℕ) (b : Fin B) : ℝ :=
  maxTag startIdx
    (fun i => vitAlphas trans startIdx norm lengths unary T b i
      + trans endIdx i)

/-- Batched backward walk (source lines 201-210); iteration `i` compares
against each element's own reverse length `T - lengths b - 1`. -/
def vitWalkB {n B : ℕ} (trans : Fin n → Fin n → ℝ) (startIdx endIdx : Fin n)
    (norm : Bool) (lengths : Fin B → ℕ) (unary : ℕ → Fin B → Fin n → ℝ)
    (T : ℕ) : ℕ → Fin B → Fin n
  | 0 => vitLastB trans startIdx endIdx norm lengths unary T
  | i + 1 => fun b =>
      if (T : ℤ) - (lengths b : ℤ) - 1 < (i : ℤ) then
        vitBpB trans startIdx norm lengths unary (T - 1 - i) b
          (vitWalkB trans startIdx endIdx norm lengths unary T i b)
      else vitWalkB trans startIdx endIdx norm lengths unary T i b

/-- Batched decoded path for element `b` (source lines 201-218): the `T + 1`
recorded values of `best_tag_id`, minus the popped last one, reversed into
forward time order and truncated to `lengths b`. -/
def vitPathsB {n B : ℕ} (trans : Fin n → Fin n → ℝ) (startIdx endIdx : Fin n)
    (norm : Bool) (lengths : Fin B → ℕ) (unary : ℕ → Fin B → Fin n → ℝ)
    (T : ℕ) (b : Fin B) : List (Fin n) :=
  (((List.map
    (fun k => vitWalkB trans startIdx endIdx norm lengths unary T k b)
    (List.range (T + 1))).dropLast).reverse).take (lengths b)

/-! ### Gold-path scorer -/

/-- Modelled from the spec: `sequence_mask` (from `baseline.pytorch.torchy`,
not among the sources) marks the valid positions `t < lengths b`; positions
at or beyond the length are padding. -/
def seqMask {B : ℕ} (lengths : Fin B → ℕ) (t : ℕ) (b : Fin B) : Bool :=
  decide (t < lengths b)

/-- The gold tag tensor with the start tag prepended (source lines 87-88):
row `0` is the start tag, row `t + 1` is gold row `t`. -/
def tagsCat {n B : ℕ} (startIdx : Fin n) (tags : ℕ → Fin B → Fin n) :
    ℕ → Fin B → Fin n :=
  fun t b => if t = 0 then startIdx else tags (t - 1) b

/-- Gold-path score for element `b` (`CRF.score_sentence`, source lines
76-106): emission plus incoming-transition score at every step, zeroed at
padded positions by the sequence mask, plus the transition from the tag at
the true last position into the end tag. -/
def scoreSentenceB {n B : ℕ} (trans : Fin n → Fin n → ℝ)
    (startIdx endIdx : Fin n) (lengths : Fin B → ℕ)
    (unary : ℕ → Fin B → Fin n → ℝ) (tags : ℕ → Fin B → Fin n) (T : ℕ)
    (b : Fin B) : ℝ :=
  (∑ t ∈ Finset.range T,
    if seqMask lengths t b then
      unary t b (tagsCat startIdx tags (t + 1) b)
        + trans (tagsCat startIdx tags (t + 1) b) (tagsCat startIdx tags t b)
    else 0)
  + trans endIdx (tagsCat startIdx tags (lengths b) b)

/-- Per-example loss (`CRF.neg_log_loss`, source lines 58-74): forward score
minus gold score. -/
def negLogLossB {n B : ℕ} (trans : Fin n → Fin n → ℝ)
    (startIdx endIdx : Fin n) (lengths : Fin B → ℕ)
    (unary : ℕ → Fin B → Fin n → ℝ) (tags : ℕ → Fin B → Fin n) (T : ℕ)
    (b : Fin B) : ℝ :=
  fwdScoreB trans startIdx endIdx lengths unary T b
    - scoreSentenceB trans startIdx endIdx lengths unary tags T b

/-! ### The CRF object -/

/-- The raw configuration stored by `CRF.__init__` (source lines 19-44).
The constructor body performs no validation whatsoever: it unconditionally
stores the tag count, the start/end indices, the orientation flag and the
optional mask. -/
structure CRFRaw where
  n_tags : ℕ
  start_idx : ℕ
  end_idx : ℕ
  batch_first : Bool
  has_mask : Bool
  deriving Repr, DecidableEq

/-- `CRF.__init__` (source lines 19-44), translated statement by statement:
unpack `idxs` into the start/end indices and store every field.  No check of
`n_tags ≥ 2` nor of the index ranges is performed. -/
def crfInit (n_tags : ℕ) (idxs : ℕ × ℕ) (batch_first : Bool)
    (has_mask : Bool) : CRFRaw :=
  { n_tags := n_tags
    start_idx := idxs.1
    end_idx := idxs.2
    batch_first := batch_first
    has_mask := has_mask }

/-- A well-typed CRF layer state: the raw transition parameter, the optional
transition-validity mask (`True` = invalid) and the start/end indices. -/
structure CRFState (n : ℕ) where
  transitions_p : Fin n → Fin n → ℝ
  maskOpt : Option (Fin n → Fin n → Bool)
  start_idx : Fin n
  end_idx : Fin n
  batch_first : Bool

/-- The effective transition matrix (`CRF.transitions`, source lines 52-56):
the parameter with masked entries overwritten by the sentinel. -/
def CRFState.transitions {n : ℕ} (s : CRFState n) : Fin n → Fin n → ℝ :=
  match s.maskOpt with
  | some m => fun i j => if m i j then sentinel else s.transitions_p i j
  | none => s.transitions_p

/-- `CRF.forward` as a state transformer: the method body reads
`self.transitions` and assigns no field, so the resulting state is the input
state. -/
def CRFState.forwardOp {n B : ℕ} (s : CRFState n)
    (unary : ℕ → Fin B → Fin n → ℝ) (lengths : Fin B → ℕ) (T : ℕ) :
    (Fin B → ℝ) × CRFState n :=
  (fun b => fwdScoreB s.transitions s.start_idx s.end_idx lengths unary T b, s)

/-- `CRF.score_sentence` as a state transformer; no field is assigned. -/
def CRFState.scoreSentenceOp {n B : ℕ} (s : CRFState n)
    (unary : ℕ → Fin B → Fin n → ℝ) (tags : ℕ → Fin B → Fin n)
    (lengths : Fin B → ℕ) (T : ℕ) : (Fin B → ℝ) × CRFState n :=
  (fun b => scoreSentenceB s.transitions s.start_idx s.end_idx lengths unary
    tags T b, s)

/-- `CRF.neg_log_loss` as a state transformer (source lines 58-74); no field
is assigned. -/
def CRFState.negLogLossOp {n B : ℕ} (s : CRFState n)
    (unary : ℕ → Fin B → Fin n → ℝ) (tags : ℕ → Fin B → Fin n)
    (lengths : Fin B → ℕ) (T : ℕ) : (Fin B → ℝ) × CRFState n :=
  (fun b => negLogLossB s.transitions s.start_idx s.end_idx lengths unary
    tags T b, s)

/-- `CRF.decode` as a state transformer (source lines 148-160): calls
`viterbi` with the effective transitions and `norm = False`; no field is
assigned. -/
def CRFState.decodeOp {n B : ℕ} (s : CRFState n)
    (unary : ℕ → Fin B → Fin n → ℝ) (lengths : Fin B → ℕ) (T : ℕ) :
    ((Fin B → List (Fin n)) × (Fin B → ℝ)) × CRFState n :=
  ((fun b => vitPathsB s.transitions s.start_idx s.end_idx false lengths
      unary T b,
    fun b => vitScoreB s.transitions s.start_idx s.end_idx false lengths
      unary T b), s)

/-- The `CRF.transitions` property access as a state transformer: a pure
read. -/
def CRFState.transitionsOp {n : ℕ} (s : CRFState n) :
    (Fin n → Fin n → ℝ) × CRFState n :=
  (s.transitions, s)

/-! ### Spec-side path scores

These definitions follow the words of the spec and of the claims (total path
score of a tag sequence: transition from the virtual predecessor into each
tag, emission at each step, transition from the last tag into the end tag).
They are the comparison points for the refinement claims, not translations of
source code. -/

/-- Spec-side total path score of the tag sequence `ys` starting at time `s`
with virtual predecessor `p`: for each tag, the transition into it from its
predecessor plus its emission; after the last tag, the transition into the
end tag (from `p` itself if `ys` is empty). -/
def chainScore {n : ℕ} (trans : Fin n → Fin n → ℝ) (endIdx : Fin n)
    (unary : ℕ → Fin n → ℝ) (p : Fin n) (s : ℕ) : List (Fin n) → ℝ
  | [] => trans endIdx p
  | y :: ys => trans y p + unary s y + chainScore trans endIdx unary y (s + 1) ys

/-- Spec-side path score without the final transition into the end tag. -/
def chainPre {n : ℕ} (trans : Fin n → Fin n → ℝ) (unary : ℕ → Fin n → ℝ)
    (p : Fin n) (s : ℕ) : List (Fin n) → ℝ
  | [] => 0
  | y :: ys => trans y p + unary s y + chainPre trans unary y (s + 1) ys

/-- The last tag of a sequence, with the virtual predecessor as default for
the empty sequence. -/
def lastTag {n : ℕ} (p : Fin n) (ys : List (Fin n)) : Fin n :=
  ys.getLastD p

/-! ### Proof scaffolding -/

/-- Sum, over all tag sequences of length `t` that end in tag `i` (paired
with an arbitrary virtual initial tag weighted by `alphaInit`), of the
exponentiated prefix score.  This is the quantity the forward alphas compute
in log space. -/
def pathSum {n : ℕ} (trans : Fin n → Fin n → ℝ) (startIdx : Fin n)
    (unary : ℕ → Fin n → ℝ) : ℕ → Fin n → ℝ
  | 0 => fun i => Real.exp (alphaInit startIdx i)
  | t + 1 => fun i =>
      (∑ j, pathSum trans startIdx unary t j * Real.exp (trans i j))
        * Real.exp (unary t i)

/-- Sum over all tag sequences of length `L` (starting at time `s` with
virtual predecessor `p`) of the exponentiated spec-side path score. -/
def pathExpSum {n : ℕ} (trans : Fin n → Fin n → ℝ) (endIdx : Fin n)
    (unary : ℕ → Fin n → ℝ) (p : Fin n) (s L : ℕ) : ℝ :=
  ∑ f : Fin L → Fin n,
    Real.exp (chainScore trans endIdx unary p s (List.ofFn f))

/-- The tag sequence obtained by following the recorded back-pointers down
from tag `i` after `t` forward steps (proof scaffolding for the Viterbi
argument). -/
def vitTrace {n : ℕ} (trans : Fin n → Fin n → ℝ) (startIdx : Fin n)
    (norm : Bool) (unary : ℕ → Fin n → ℝ) (L : ℕ) :
    ℕ → Fin n → List (Fin n)
  | 0, _ => []
  | t + 1, i =>
      vitTrace trans startIdx norm unary L t
        (vitBp trans startIdx norm unary L t i) ++ [i]

/-- The virtual initial tag reached by following the recorded back-pointers
down from tag `i` after `t` forward steps. -/
def vitTraceInit {n : ℕ} (trans : Fin n → Fin n → ℝ) (startIdx : Fin n)
    (norm : Bool) (unary : ℕ → Fin n → ℝ) (L : ℕ) : ℕ → Fin n → Fin n
  | 0, i => i
  | t + 1, i =>
      vitTraceInit trans startIdx norm unary L t
        (vitBp trans startIdx norm unary L t i)

/-! ### Concrete instances

Small concrete inputs used to settle claims on explicit data: two tags
(`0` as start, `1` as end), batch size one, one time step. -/

/-- An all-zero effective transition matrix over two tags. -/
def transZero2 : Fin 2 → Fin 2 → ℝ := fun _ _ => 0

/-- A transition matrix over two tags whose only nonzero entry, into tag `0`
from tag `1`, is large enough to overcome the sentinel. -/
def transBig2 : Fin 2 → Fin 2 → ℝ := fun i j =>
  if i = 0 ∧ j = 1 then 20000 else 0

/-- An all-zero emission tensor for a batch of one over two tags. -/
def unaryZero1 : ℕ → Fin 1 → Fin 2 → ℝ := fun _ _ _ => 0

/-- The length vector of a batch of one element of length one. -/
def lengthsOne1 : Fin 1 → ℕ := fun _ => 1

/-- The length vector of a batch of two elements of lengths one and three
(the spec's batching scenario). -/
def lengthsTwo : Fin 2 → ℕ := fun b => if b = 0 then 1 else 3

/-- An all-zero emission tensor for a batch of two over two tags. -/
def unaryZero2 : ℕ → Fin 2 → Fin 2 → ℝ := fun _ _ _ => 0

/-- An all-zero gold tag tensor for a batch of one over two tags. -/
def tagsZero1 : ℕ → Fin 1 → Fin 2 := fun _ _ => 0

/-- A gold tag tensor that agrees with `tagsZero1` at step `0` but differs
at every padded position `t ≥ 1`. -/
def tagsPad1 : ℕ → Fin 1 → Fin 2 := fun t _ => if t = 0 then 0 else 1

/-! ## Theorems -/

section ArgmaxLemmas

variable {n : ℕ} (i0 : Fin n) (f : Fin n → ℝ)

theorem le_argmaxTag (j : Fin n) : f j ≤ f (argmaxTag i0 f) := by
  unfold argmaxTag
  cases h : (List.finRange n).argmax f with
  | none =>
    have h2 : List.finRange n = [] := List.argmax_eq_none.mp h
    exact absurd (h2 ▸ List.mem_finRange j) (List.not_mem_nil j)
  | some a =>
    simpa [h] using List.le_of_mem_argmax (List.mem_finRange j) h

theorem argmaxTag_achieves : f (argmaxTag i0 f) = maxTag i0 f := by
  apply le_antisymm
  · exact Finset.le_sup' f (Finset.mem_univ _)
  · exact Finset.sup'_le _ _ fun j _ => le_argmaxTag i0 f j

theorem le_maxTag (j : Fin n) : f j ≤ maxTag i0 f :=
  Finset.le_sup' f (Finset.mem_univ j)

theorem maxTag_le {c : ℝ} (h : ∀ j, f j ≤ c) : maxTag i0 f ≤ c :=
  Finset.sup'_le _ _ fun j _ => h j

theorem maxTag_add_const (c : ℝ) :
    maxTag i0 (fun j => f j + c) = maxTag i0 f + c := by
  apply le_antisymm
  · exact maxTag_le i0 _ fun j => add_le_add_right (le_maxTag i0 f j) c
  · have ⟨j, _, hj⟩ := Finset.exists_mem_eq_sup' ⟨i0, Finset.mem_univ i0⟩ f
    calc maxTag i0 f + c = f j + c := by rw [maxTag, ← hj]
    _ ≤ maxTag i0 (fun j => f j + c) := le_maxTag i0 (fun k => f k + c) j

end ArgmaxLemmas

section LogSumExpLemmas

variable {n : ℕ}

theorem sum_exp_pos (i0 : Fin n) (v : Fin n → ℝ) :
    0 < ∑ j, Real.exp (v j) :=
  Finset.sum_pos (fun j _ => Real.exp_pos (v j)) ⟨i0, Finset.mem_univ i0⟩

theorem exp_logSumExp (i0 : Fin n) (v : Fin n → ℝ) :
    Real.exp (logSumExp v) = ∑ j, Real.exp (v j) :=
  Real.exp_log (sum_exp_pos i0 v)

end LogSumExpLemmas

section Projection

variable {n B : ℕ}

theorem minLength_le (lengths : Fin B → ℕ) (b : Fin B) :
    minLength lengths ≤ lengths b := by
  unfold minLength
  rw [dif_pos ⟨b, Finset.mem_univ b⟩]
  exact Finset.inf'_le lengths (Finset.mem_univ b)

theorem fwdAlphas_proj (trans : Fin n → Fin n → ℝ) (startIdx : Fin n)
    (lengths : Fin B → ℕ) (unary : ℕ → Fin B → Fin n → ℝ) (i : ℕ)
    (b : Fin B) :
    fwdAlphas trans startIdx lengths unary i b
      = fwdAlpha trans startIdx (fun t => unary t b) (lengths b) i := by
  induction i with
  | zero => rfl
  | succ i ih =>
    funext tag
    simp only [fwdAlphas, fwdAlpha, ih]
    by_cases hmin : minLength lengths ≤ i
    · by_cases hlen : i < lengths b
      · simp [hmin, hlen]
      · simp [hmin, hlen]
    · have hlt : i < lengths b :=
        lt_of_lt_of_le (lt_of_not_le hmin) (minLength_le lengths b)
      simp [hmin, hlt]

theorem fwdScoreB_proj (trans : Fin n → Fin n → ℝ) (startIdx endIdx : Fin n)
    (lengths : Fin B → ℕ) (unary : ℕ → Fin B → Fin n → ℝ) (T : ℕ)
    (b : Fin B) :
    fwdScoreB trans startIdx endIdx lengths unary T b
      = fwdScore trans startIdx endIdx (fun t => unary t b) (lengths b) T := by
  unfold fwdScoreB fwdScore
  rw [fwdAlphas_proj]

theorem vitAlphas_proj (trans : Fin n → Fin n → ℝ) (startIdx : Fin n)
    (norm : Bool) (lengths : Fin B → ℕ) (unary : ℕ → Fin B → Fin n → ℝ)
    (i : ℕ) (b : Fin B) :
    vitAlphas trans startIdx norm lengths unary i b
      = vitAlpha trans startIdx norm (fun t => unary t b) (lengths b) i := by
  induction i with
  | zero => rfl
  | succ i ih =>
    funext tag
    simp only [vitAlphas, vitAlpha, ih]
    by_cases hmin : minLength lengths ≤ i
    · by_cases hlen : i < lengths b
      · simp [hmin, hlen]
      · simp [hmin, hlen]
    · have hlt : i < lengths b :=
        lt_of_lt_of_le (lt_of_not_le hmin) (minLength_le lengths b)
      simp [hmin, hlt]

theorem vitBpB_proj (trans : Fin n → Fin n → ℝ) (startIdx : Fin n)
    (norm : Bool) (lengths : Fin B → ℕ) (unary : ℕ → Fin B → Fin n → ℝ)
    (i : ℕ) (b : Fin B) (tag : Fin n) :
    vitBpB trans startIdx norm lengths unary i b tag
      = vitBp trans startIdx norm (fun t => unary t b) (lengths b) i tag := by
  unfold vitBpB vitBp
  rw [vitAlphas_proj]

theorem vitLastB_proj (trans : Fin n → Fin n → ℝ) (startIdx endIdx : Fin n)
    (norm : Bool) (lengths : Fin B → ℕ) (unary : ℕ → Fin B → Fin n → ℝ)
    (T : ℕ) (b : Fin B) :
    vitLastB trans startIdx endIdx norm lengths unary T b
      = vitLast trans startIdx endIdx norm (fun t => unary t b) (lengths b)
          T := by
  unfold vitLastB vitLast
  rw [vitAlphas_proj]

theorem vitScoreB_proj (trans : Fin n → Fin n → ℝ) (startIdx endIdx : Fin n)
    (norm : Bool) (lengths : Fin B → ℕ) (unary : ℕ → Fin B → Fin n → ℝ)
    (T : ℕ) (b : Fin B) :
    vitScoreB trans startIdx endIdx norm lengths unary T b
      = vitScore trans startIdx endIdx norm (fun t => unary t b) (lengths b)
          T := by
  unfold vitScoreB vitScore
  rw [vitAlphas_proj]

theorem vitWalkB_proj (trans : Fin n → Fin n → ℝ) (startIdx endIdx : Fin n)
    (norm : Bool) (lengths : Fin B → ℕ) (unary : ℕ → Fin B → Fin n → ℝ)
    (T : ℕ) (k : ℕ) (b : Fin B) :
    vitWalkB trans startIdx endIdx norm lengths unary T k b
      = vitWalk trans startIdx endIdx norm (fun t => unary t b) (lengths b) T
          k := by
  induction k with
  | zero => simp only [vitWalkB, vitWalk, vitLastB_proj]
  | succ k ih =>
    simp only [vitWalkB, vitWalk, ih, vitBpB_proj]

theorem vitPathsB_proj (trans : Fin n → Fin n → ℝ) (startIdx endIdx : Fin n)
    (norm : Bool) (lengths : Fin B → ℕ) (unary : ℕ → Fin B → Fin n → ℝ)
    (T : ℕ) (b : Fin B) :
    vitPathsB trans startIdx endIdx norm lengths unary T b
      = vitPath trans startIdx endIdx norm (fun t => unary t b) (lengths b)
          T := by
  unfold vitPathsB vitPath
  congr 1
  congr 1
  congr 1
  apply List.map_congr_left
  intro k _
  exact vitWalkB_proj trans startIdx endIdx norm lengths unary T k b

end Projection

section ForwardCorrectness

variable {n : ℕ} (trans : Fin n → Fin n → ℝ) (startIdx endIdx : Fin n)
    (unary : ℕ → Fin n → ℝ)

theorem fwdAlpha_freeze (L : ℕ) {t : ℕ} (h : L ≤ t) :
    fwdAlpha trans startIdx unary L t = fwdAlpha trans startIdx unary L L := by
  induction t, h using Nat.le_induction with
  | base => rfl
  | succ t ht ih =>
    funext i
    simp only [fwdAlpha]
    rw [if_neg (by omega)]
    exact congrFun ih i

theorem pathSum_pos (t : ℕ) (i : Fin n) :
    0 < pathSum trans startIdx unary t i := by
  induction t generalizing i with
  | zero => exact Real.exp_pos _
  | succ t ih =>
    exact mul_pos
      (Finset.sum_pos (fun j _ => mul_pos (ih j) (Real.exp_pos _))
        ⟨i, Finset.mem_univ i⟩)
      (Real.exp_pos _)

theorem fwdAlpha_eq_log_pathSum (L : ℕ) :
    ∀ t, t ≤ L → ∀ i, fwdAlpha trans startIdx unary L t i
      = Real.log (pathSum trans startIdx unary t i) := by
  intro t
  induction t with
  | zero =>
    intro _ i
    show alphaInit startIdx i = _
    rw [pathSum, Real.log_exp]
  | succ t ih =>
    intro h i
    have ht : t < L := h
    simp only [fwdAlpha, if_pos ht]
    have hpos : (0 : ℝ) < ∑ j, pathSum trans startIdx unary t j
        * Real.exp (trans i j) :=
      Finset.sum_pos
        (fun j _ => mul_pos (pathSum_pos trans startIdx unary t j)
          (Real.exp_pos _)) ⟨i, Finset.mem_univ i⟩
    have hsum : logSumExp
        (fun j => fwdAlpha trans startIdx unary L t j + trans i j)
        = Real.log (∑ j, pathSum trans startIdx unary t j
            * Real.exp (trans i j)) := by
      unfold logSumExp
      congr 1
      refine Finset.sum_congr rfl fun j _ => ?_
      show Real.exp (fwdAlpha trans startIdx unary L t j + trans i j) = _
      rw [ih (le_of_lt ht) j, Real.exp_add,
        Real.exp_log (pathSum_pos trans startIdx unary t j)]
    have hps : pathSum trans startIdx unary (t + 1) i
        = (∑ j, pathSum trans startIdx unary t j * Real.exp (trans i j))
          * Real.exp (unary t i) := rfl
    rw [hsum, hps, Real.log_mul hpos.ne' (Real.exp_ne_zero _), Real.log_exp]

theorem pathExpSum_zero (p : Fin n) (s : ℕ) :
    pathExpSum trans endIdx unary p s 0 = Real.exp (trans endIdx p) := by
  unfold pathExpSum
  rw [Fintype.sum_unique]
  simp [chainScore]

theorem pathExpSum_succ (p : Fin n) (s L : ℕ) :
    pathExpSum trans endIdx unary p s (L + 1)
      = ∑ y, Real.exp (trans y p + unary s y)
          * pathExpSum trans endIdx unary y (s + 1) L := by
  unfold pathExpSum
  rw [← Equiv.sum_comp (Fin.consEquiv fun _ => Fin n)
    (fun f => Real.exp (chainScore trans endIdx unary p s (List.ofFn f)))]
  rw [Fintype.sum_prod_type]
  refine Finset.sum_congr rfl fun y _ => ?_
  rw [Finset.mul_sum]
  refine Finset.sum_congr rfl fun f _ => ?_
  have hofn : List.ofFn (Fin.cons y f : Fin (L + 1) → Fin n)
      = y :: List.ofFn f := by
    rw [List.ofFn_succ]
    simp [Fin.cons_zero, Fin.cons_succ]
  show Real.exp (chainScore trans endIdx unary p s
    (List.ofFn (Fin.cons y f))) = _
  rw [hofn, chainScore, Real.exp_add, Real.exp_add]

theorem pathSum_cut (t u : ℕ) :
    (∑ i, pathSum trans startIdx unary t i
        * pathExpSum trans endIdx unary i t u)
      = ∑ j, Real.exp (alphaInit startIdx j)
          * pathExpSum trans endIdx unary j 0 (t + u) := by
  induction t generalizing u with
  | zero =>
    simp only [Nat.zero_add]
    rfl
  | succ t ih =>
    have expand : ∀ i : Fin n, pathSum trans startIdx unary (t + 1) i
          * pathExpSum trans endIdx unary i (t + 1) u
        = ∑ j, pathSum trans startIdx unary t j
            * (Real.exp (trans i j + unary t i)
                * pathExpSum trans endIdx unary i (t + 1) u) := by
      intro i
      have hps : pathSum trans startIdx unary (t + 1) i
          = (∑ j, pathSum trans startIdx unary t j * Real.exp (trans i j))
            * Real.exp (unary t i) := rfl
      rw [hps, Finset.sum_mul, Finset.sum_mul]
      refine Finset.sum_congr rfl fun j _ => ?_
      rw [Real.exp_add]
      ring
    calc (∑ i, pathSum trans startIdx unary (t + 1) i
          * pathExpSum trans endIdx unary i (t + 1) u)
        = ∑ i, ∑ j, pathSum trans startIdx unary t j
            * (Real.exp (trans i j + unary t i)
                * pathExpSum trans endIdx unary i (t + 1) u) :=
          Finset.sum_congr rfl fun i _ => expand i
      _ = ∑ j, ∑ i, pathSum trans startIdx unary t j
            * (Real.exp (trans i j + unary t i)
                * pathExpSum trans endIdx unary i (t + 1) u) :=
          Finset.sum_comm
      _ = ∑ j, pathSum trans startIdx unary t j
            * pathExpSum trans endIdx unary j t (u + 1) := by
          refine Finset.sum_congr rfl fun j _ => ?_
          rw [← Finset.mul_sum, pathExpSum_succ]
      _ = ∑ j, Real.exp (alphaInit startIdx j)
            * pathExpSum trans endIdx unary j 0 (t + 1 + u) := by
          rw [ih (u + 1), show t + (u + 1) = t + 1 + u from by omega]

theorem fwdScore_eq (L T : ℕ) (hLT : L ≤ T) :
    fwdScore trans startIdx endIdx unary L T
      = Real.log (∑ j, Real.exp (alphaInit startIdx j)
          * pathExpSum trans endIdx unary j 0 L) := by
  unfold fwdScore
  rw [fwdAlpha_freeze trans startIdx unary L hLT]
  unfold logSumExp
  congr 1
  calc (∑ i, Real.exp (fwdAlpha trans startIdx unary L L i + trans endIdx i))
      = ∑ i, pathSum trans startIdx unary L i
          * pathExpSum trans endIdx unary i L 0 := by
        refine Finset.sum_congr rfl fun i _ => ?_
        show Real.exp (fwdAlpha trans startIdx unary L L i + trans endIdx i)
          = _
        rw [fwdAlpha_eq_log_pathSum trans startIdx unary L L le_rfl i,
          Real.exp_add, Real.exp_log (pathSum_pos trans startIdx unary L i),
          pathExpSum_zero]
    _ = ∑ j, Real.exp (alphaInit startIdx j)
          * pathExpSum trans endIdx unary j 0 (L + 0) :=
        pathSum_cut trans startIdx endIdx unary L 0
    _ = _ := by rw [Nat.add_zero]

theorem fwdScoreB_closed {B : ℕ} (lengths : Fin B → ℕ)
    (unaryB : ℕ → Fin B → Fin n → ℝ) (T : ℕ) (b : Fin B)
    (hLT : lengths b ≤ T) :
    fwdScoreB trans startIdx endIdx lengths unaryB T b
      = Real.log (∑ j, ∑ f : Fin (lengths b) → Fin n,
          Real.exp (alphaInit startIdx j
            + chainScore trans endIdx (fun t => unaryB t b) j 0
                (List.ofFn f))) := by
  rw [fwdScoreB_proj,
    fwdScore_eq trans startIdx endIdx (fun t => unaryB t b) (lengths b) T hLT]
  congr 1
  refine Finset.sum_congr rfl fun j _ => ?_
  show Real.exp (alphaInit startIdx j)
      * pathExpSum trans endIdx (fun t => unaryB t b) j 0 (lengths b) = _
  unfold pathExpSum
  rw [Finset.mul_sum]
  refine Finset.sum_congr rfl fun f _ => ?_
  rw [Real.exp_add]

end ForwardCorrectness

section GoldScore

variable {n : ℕ} (trans : Fin n → Fin n → ℝ) (startIdx endIdx : Fin n)

theorem scoreSentenceB_closed {B : ℕ} (lengths : Fin B → ℕ)
    (unary : ℕ → Fin B → Fin n → ℝ) (tags : ℕ → Fin B → Fin n) (T : ℕ)
    (b : Fin B) (h1 : 1 ≤ lengths b) (hLT : lengths b ≤ T) :
    scoreSentenceB trans startIdx endIdx lengths unary tags T b
      = (∑ t ∈ Finset.range (lengths b),
          (unary t b (tags t b)
            + trans (tags t b) (if t = 0 then startIdx else tags (t - 1) b)))
        + trans endIdx (tags (lengths b - 1) b) := by
  unfold scoreSentenceB
  have hmask : ∀ t, (if seqMask lengths t b then
        unary t b (tagsCat startIdx tags (t + 1) b)
          + trans (tagsCat startIdx tags (t + 1) b)
              (tagsCat startIdx tags t b)
      else 0)
      = if t < lengths b then
          unary t b (tags t b)
            + trans (tags t b) (if t = 0 then startIdx else tags (t - 1) b)
        else 0 := by
    intro t
    unfold seqMask tagsCat
    by_cases ht : t < lengths b
    · simp [ht]
    · simp [ht]
  rw [Finset.sum_congr rfl fun t _ => hmask t]
  have hsub : (Finset.range (lengths b)) ⊆ Finset.range T :=
    Finset.range_subset.mpr hLT
  have hzero : ∀ t ∈ Finset.range T, t ∉ Finset.range (lengths b) →
      (if t < lengths b then
        unary t b (tags t b)
          + trans (tags t b) (if t = 0 then startIdx else tags (t - 1) b)
      else 0) = 0 := by
    intro t _ hnt
    rw [if_neg (by simpa using hnt)]
  rw [← Finset.sum_subset hsub hzero]
  congr 1
  · refine Finset.sum_congr rfl fun t ht => if_pos (Finset.mem_range.mp ht)
  · unfold tagsCat
    rw [if_neg (by omega)]

theorem chainScore_ofFn_eq (unary : ℕ → Fin n → ℝ) (tgs : ℕ → Fin n)
    (p : Fin n) (s : ℕ) {L : ℕ} (h1 : 1 ≤ L) :
    chainScore trans endIdx unary p s (List.ofFn fun t : Fin L => tgs t)
      = (∑ t ∈ Finset.range L,
          (unary (s + t) (tgs t)
            + trans (tgs t) (if t = 0 then p else tgs (t - 1))))
        + trans endIdx (tgs (L - 1)) := by
  induction L, h1 using Nat.le_induction generalizing tgs p s with
  | base =>
    have hofn : List.ofFn (fun t : Fin 1 => tgs t) = [tgs 0] := by
      simp
    rw [hofn, chainScore, chainScore]
    rw [Finset.sum_range_one]
    have hif : (if (0 : ℕ) = 0 then p else tgs (0 - 1)) = p := if_pos rfl
    rw [hif, Nat.add_zero]
    ring
  | succ L hL ih =>
    have hofn : List.ofFn (fun t : Fin (L + 1) => tgs t)
        = tgs 0 :: List.ofFn (fun t : Fin L => tgs (t + 1)) := by
      rw [List.ofFn_succ]
      congr 1
    rw [hofn, chainScore, ih (fun u => tgs (u + 1)) (tgs 0) (s + 1)]
    rw [Finset.sum_range_succ']
    have hterm : ∀ t, (unary (s + 1 + t) (tgs (t + 1))
          + trans (tgs (t + 1)) (if t = 0 then tgs 0 else tgs (t - 1 + 1)))
        = (unary (s + (t + 1)) (tgs (t + 1))
          + trans (tgs (t + 1))
              (if t + 1 = 0 then p else tgs (t + 1 - 1))) := by
      intro t
      have h1 : s + 1 + t = s + (t + 1) := by omega
      have h2 : (if t = 0 then tgs 0 else tgs (t - 1 + 1)) = tgs t := by
        by_cases ht : t = 0
        · rw [if_pos ht, ht]
        · rw [if_neg ht, show t - 1 + 1 = t from by omega]
      rw [h1, h2, if_neg (Nat.succ_ne_zero t), Nat.add_sub_cancel]
    rw [Finset.sum_congr rfl fun t _ => hterm t]
    have hlast : tgs (L - 1 + 1) = tgs (L + 1 - 1) := by
      rw [show L - 1 + 1 = L from by omega, Nat.add_sub_cancel]
    rw [hlast]
    have hzer : (unary (s + 0) (tgs 0)
          + trans (tgs 0) (if (0 : ℕ) = 0 then p else tgs (0 - 1)))
        = unary s (tgs 0) + trans (tgs 0) p := by
      rw [Nat.add_zero, if_pos rfl]
    rw [hzer]
    ring

end GoldScore

section ClaimForwardGold

/-- C3: for every batch element `b` with `1 ≤ lengths b ≤ T`,
`score_sentence` returns the sum over time steps `t < lengths b` of
`emission[t][tag[t]] + transition[tag[t], tag[t-1]]`, where `tag[-1]` is the
start tag, plus the transition from the tag at the true last position
`lengths b - 1` into the end tag; positions `t ≥ lengths b` contribute
zero. -/
theorem claim_C3_score_sentence {n B : ℕ} (trans : Fin n → Fin n → ℝ)
    (startIdx endIdx : Fin n) (lengths : Fin B → ℕ)
    (unary : ℕ → Fin B → Fin n → ℝ) (tags : ℕ → Fin B → Fin n) (T : ℕ)
    (b : Fin B) (h1 : 1 ≤ lengths b) (hLT : lengths b ≤ T) :
    scoreSentenceB trans startIdx endIdx lengths unary tags T b
      = (∑ t ∈ Finset.range (lengths b),
          (unary t b (tags t b)
            + trans (tags t b) (if t = 0 then startIdx else tags (t - 1) b)))
        + trans endIdx (tags (lengths b - 1) b) :=
  scoreSentenceB_closed trans startIdx endIdx lengths unary tags T b h1 hLT

/-- Witness for C3 at a concrete input: batch of one, two tags, one time
step, all scores zero, gold tag `0`. -/
theorem claim_C3_score_sentence_witness :
    1 ≤ lengthsOne1 0 ∧ lengthsOne1 0 ≤ 1 ∧
    scoreSentenceB transZero2 0 1 lengthsOne1 unaryZero1
        (fun _ _ => 0) 1 0
      = (∑ t ∈ Finset.range (lengthsOne1 0),
          (unaryZero1 t 0 ((fun _ _ => (0 : Fin 2)) t 0)
            + transZero2 ((fun _ _ => (0 : Fin 2)) t 0)
                (if t = 0 then 0 else (fun _ _ => (0 : Fin 2)) (t - 1) 0)))
        + transZero2 1 ((fun _ _ => (0 : Fin 2)) (lengthsOne1 0 - 1) 0) :=
  ⟨by decide, by decide,
    claim_C3_score_sentence transZero2 0 1 lengthsOne1 unaryZero1
      (fun _ _ => 0) 1 0 (by decide) (by decide)⟩

/-- C2 (amended): for every batch element `b` with `1 ≤ lengths b ≤ T`, the
forward pass returns the log of the sum over all pairs of a virtual initial
tag `j` and a tag sequence of length `lengths b`, of the exponentiated total
path score, where the initial tag contributes `alphaInit` (`0` for the start
tag and the sentinel `-10000` otherwise).  The claim as stated — with the sum
restricted to sequences whose virtual predecessor is the start tag — fails
because the sentinel is finite (see the counterexample). -/
theorem claim_C2_forward_amended {n B : ℕ} (trans : Fin n → Fin n → ℝ)
    (startIdx endIdx : Fin n) (lengths : Fin B → ℕ)
    (unary : ℕ → Fin B → Fin n → ℝ) (T : ℕ) (b : Fin B)
    (h1 : 1 ≤ lengths b) (hLT : lengths b ≤ T) :
    fwdScoreB trans startIdx endIdx lengths unary T b
      = Real.log (∑ j, ∑ f : Fin (lengths b) → Fin n,
          Real.exp (alphaInit startIdx j
            + chainScore trans endIdx (fun t => unary t b) j 0
                (List.ofFn f))) :=
  fwdScoreB_closed trans startIdx endIdx lengths unary T b hLT

/-- Witness for the amended C2 at a concrete input: batch of one, two tags,
one time step, all scores zero. -/
theorem claim_C2_forward_amended_witness :
    1 ≤ lengthsOne1 0 ∧ lengthsOne1 0 ≤ 1 ∧
    fwdScoreB transZero2 0 1 lengthsOne1 unaryZero1 1 0
      = Real.log (∑ j, ∑ f : Fin (lengthsOne1 0) → Fin 2,
          Real.exp (alphaInit 0 j
            + chainScore transZero2 1 (fun t => unaryZero1 t 0) j 0
                (List.ofFn f))) :=
  ⟨by decide, by decide,
    claim_C2_forward_amended transZero2 0 1 lengthsOne1 unaryZero1 1 0
      (by decide) (by decide)⟩

/-- C2 as stated is false: on a batch of one with two tags (start `0`, end
`1`), one time step, length one, and all transition and emission scores zero,
the forward pass does not return the log of the sum over the two length-one
tag sequences of the exponentiated path score (the value computed is strictly
larger, because the sentinel-initialized non-start entries of the initial
alpha vector contribute `exp (-10000) > 0` to the sum). -/
theorem claim_C2_counterexample :
    fwdScoreB transZero2 0 1 lengthsOne1 unaryZero1 1 0
      ≠ Real.log (∑ f : Fin 1 → Fin 2,
          Real.exp (chainScore transZero2 1 (fun t => unaryZero1 t 0) 0 0
            (List.ofFn f))) := by
  have hchain : ∀ (j : Fin 2) (f : Fin 1 → Fin 2),
      chainScore transZero2 1 (fun t => unaryZero1 t 0) j 0 (List.ofFn f)
        = 0 := by
    intro j f
    have hofn : List.ofFn f = [f 0] := by simp
    rw [hofn, chainScore, chainScore]
    simp [transZero2, unaryZero1]
  have hsumc : ∀ c : ℝ, (∑ _f : Fin 1 → Fin 2, c) = 2 * c := by
    intro c
    rw [Finset.sum_const, Finset.card_univ,
      show Fintype.card (Fin 1 → Fin 2) = 2 by simp [Fintype.card_fun],
      nsmul_eq_mul]
    norm_num
  have hinner : ∀ j : Fin 2,
      (∑ f : Fin 1 → Fin 2,
        Real.exp (alphaInit (0 : Fin 2) j
          + chainScore transZero2 1 (fun t => unaryZero1 t 0) j 0
              (List.ofFn f)))
      = 2 * Real.exp (alphaInit (0 : Fin 2) j) := by
    intro j
    have hpt : ∀ f : Fin 1 → Fin 2,
        Real.exp (alphaInit (0 : Fin 2) j
          + chainScore transZero2 1 (fun t => unaryZero1 t 0) j 0
              (List.ofFn f))
        = Real.exp (alphaInit (0 : Fin 2) j) := by
      intro f
      rw [hchain j f, add_zero]
    rw [Finset.sum_congr rfl fun f _ => hpt f]
    exact hsumc _
  have hL : fwdScoreB transZero2 0 1 lengthsOne1 unaryZero1 1 0
      = Real.log (2 * Real.exp 0 + 2 * Real.exp sentinel) := by
    have hclosed : fwdScoreB transZero2 0 1 lengthsOne1 unaryZero1 1 0
        = Real.log (∑ j, ∑ f : Fin 1 → Fin 2,
            Real.exp (alphaInit (0 : Fin 2) j
              + chainScore transZero2 1 (fun t => unaryZero1 t 0) j 0
                  (List.ofFn f))) :=
      fwdScoreB_closed transZero2 0 1 lengthsOne1 unaryZero1 1 0
        (Nat.le_refl 1)
    rw [hclosed]
    congr 1
    rw [Fin.sum_univ_two, hinner 0, hinner 1,
      show alphaInit (0 : Fin 2) 0 = 0 from if_pos rfl,
      show alphaInit (0 : Fin 2) 1 = sentinel from if_neg (by decide)]
  have hR : Real.log (∑ f : Fin 1 → Fin 2,
        Real.exp (chainScore transZero2 1 (fun t => unaryZero1 t 0) 0 0
          (List.ofFn f)))
      = Real.log (2 * Real.exp 0) := by
    congr 1
    have hpt : ∀ f : Fin 1 → Fin 2,
        Real.exp (chainScore transZero2 1 (fun t => unaryZero1 t 0) 0 0
          (List.ofFn f)) = Real.exp 0 := by
      intro f
      rw [hchain 0 f]
    rw [Finset.sum_congr rfl fun f _ => hpt f]
    exact hsumc _
  rw [hL, hR]
  have hlt : (2 : ℝ) * Real.exp 0 < 2 * Real.exp 0 + 2 * Real.exp sentinel :=
    by nlinarith [Real.exp_pos sentinel]
  exact (Real.log_lt_log (by positivity) hlt).ne'

/-- C4: for every valid input the forward score dominates the gold-path
score for every batch element, hence `neg_log_loss` is nonnegative per
element. -/
theorem claim_C4_loss_nonneg {n B : ℕ} (trans : Fin n → Fin n → ℝ)
    (startIdx endIdx : Fin n) (lengths : Fin B → ℕ)
    (unary : ℕ → Fin B → Fin n → ℝ) (tags : ℕ → Fin B → Fin n) (T : ℕ)
    (b : Fin B) (h1 : 1 ≤ lengths b) (hLT : lengths b ≤ T) :
    scoreSentenceB trans startIdx endIdx lengths unary tags T b
        ≤ fwdScoreB trans startIdx endIdx lengths unary T b
      ∧ 0 ≤ negLogLossB trans startIdx endIdx lengths unary tags T b := by
  have hmain : scoreSentenceB trans startIdx endIdx lengths unary tags T b
      ≤ fwdScoreB trans startIdx endIdx lengths unary T b := by
    rw [scoreSentenceB_closed trans startIdx endIdx lengths unary tags T b h1
      hLT, fwdScoreB_closed trans startIdx endIdx lengths unary T b hLT]
    have hbridge : (∑ t ∈ Finset.range (lengths b),
          (unary t b (tags t b)
            + trans (tags t b) (if t = 0 then startIdx else tags (t - 1) b)))
          + trans endIdx (tags (lengths b - 1) b)
        = chainScore trans endIdx (fun t => unary t b) startIdx 0
            (List.ofFn fun t : Fin (lengths b) => tags t b) := by
      rw [chainScore_ofFn_eq trans endIdx (fun t => unary t b)
        (fun t => tags t b) startIdx 0 h1]
      congr 1
      refine Finset.sum_congr rfl fun t _ => ?_
      rw [Nat.zero_add]
    rw [hbridge]
    have hS : (0 : ℝ) < ∑ j, ∑ f : Fin (lengths b) → Fin n,
        Real.exp (alphaInit startIdx j
          + chainScore trans endIdx (fun t => unary t b) j 0
              (List.ofFn f)) :=
      Finset.sum_pos
        (fun j _ => Finset.sum_pos (fun f _ => Real.exp_pos _)
          ⟨fun _ => startIdx, Finset.mem_univ _⟩)
        ⟨startIdx, Finset.mem_univ _⟩
    rw [Real.le_log_iff_exp_le hS]
    calc Real.exp (chainScore trans endIdx (fun t => unary t b) startIdx 0
          (List.ofFn fun t : Fin (lengths b) => tags t b))
        = Real.exp (alphaInit startIdx startIdx
            + chainScore trans endIdx (fun t => unary t b) startIdx 0
                (List.ofFn fun t : Fin (lengths b) => tags t b)) := by
          rw [show alphaInit startIdx startIdx = 0 from if_pos rfl, zero_add]
      _ ≤ ∑ f : Fin (lengths b) → Fin n,
            Real.exp (alphaInit startIdx startIdx
              + chainScore trans endIdx (fun t => unary t b) startIdx 0
                  (List.ofFn f)) :=
          Finset.single_le_sum
            (f := fun g : Fin (lengths b) → Fin n =>
              Real.exp (alphaInit startIdx startIdx
                + chainScore trans endIdx (fun t => unary t b) startIdx 0
                    (List.ofFn g)))
            (fun g _ => (Real.exp_pos _).le)
            (Finset.mem_univ (fun t : Fin (lengths b) => tags t b))
      _ ≤ ∑ j, ∑ f : Fin (lengths b) → Fin n,
            Real.exp (alphaInit startIdx j
              + chainScore trans endIdx (fun t => unary t b) j 0
                  (List.ofFn f)) :=
          Finset.single_le_sum
            (f := fun j : Fin n => ∑ f : Fin (lengths b) → Fin n,
              Real.exp (alphaInit startIdx j
                + chainScore trans endIdx (fun t => unary t b) j 0
                    (List.ofFn f)))
            (fun j _ => Finset.sum_nonneg fun f _ => (Real.exp_pos _).le)
            (Finset.mem_univ startIdx)
  refine ⟨hmain, ?_⟩
  unfold negLogLossB
  linarith

/-- Witness for C4 at a concrete input: batch of one, two tags, one time
step, all scores zero, gold tag `0`. -/
theorem claim_C4_loss_nonneg_witness :
    1 ≤ lengthsOne1 0 ∧ lengthsOne1 0 ≤ 1 ∧
    (scoreSentenceB transZero2 0 1 lengthsOne1 unaryZero1 (fun _ _ => 0) 1 0
        ≤ fwdScoreB transZero2 0 1 lengthsOne1 unaryZero1 1 0
      ∧ 0 ≤ negLogLossB transZero2 0 1 lengthsOne1 unaryZero1
          (fun _ _ => 0) 1 0) :=
  ⟨by decide, by decide,
    claim_C4_loss_nonneg transZero2 0 1 lengthsOne1 unaryZero1
      (fun _ _ => 0) 1 0 (by decide) (by decide)⟩

end ClaimForwardGold

section ViterbiCore

variable {n : ℕ} (trans : Fin n → Fin n → ℝ) (startIdx endIdx : Fin n)
    (norm : Bool) (unary : ℕ → Fin n → ℝ)

theorem vitAlpha_freeze (L : ℕ) {t : ℕ} (h : L ≤ t) :
    vitAlpha trans startIdx norm unary L t
      = vitAlpha trans startIdx norm unary L L := by
  induction t, h using Nat.le_induction with
  | base => rfl
  | succ t ht ih =>
    funext i
    simp only [vitAlpha]
    rw [if_neg (by omega)]
    exact congrFun ih i

theorem chainScore_eq_chainPre (p : Fin n) (s : ℕ) (ys : List (Fin n)) :
    chainScore trans endIdx unary p s ys
      = chainPre trans unary p s ys + trans endIdx (lastTag p ys) := by
  induction ys generalizing p s with
  | nil =>
    rw [chainScore, chainPre, lastTag]
    rw [List.getLastD_nil, zero_add]
  | cons y ys ih =>
    rw [chainScore, chainPre, ih y (s + 1)]
    have hlast : lastTag p (y :: ys) = lastTag y ys := by
      unfold lastTag
      rw [List.getLastD_cons]
    rw [hlast]
    ring

theorem chainPre_concat (p : Fin n) (s : ℕ) (ys : List (Fin n)) (y : Fin n) :
    chainPre trans unary p s (ys ++ [y])
      = chainPre trans unary p s ys
        + (trans y (lastTag p ys) + unary (s + ys.length) y) := by
  induction ys generalizing p s with
  | nil =>
    rw [List.nil_append, chainPre, chainPre, chainPre]
    unfold lastTag
    rw [List.getLastD_nil, List.length_nil, Nat.add_zero]
    ring
  | cons z zs ih =>
    rw [List.cons_append, chainPre, chainPre, ih z (s + 1)]
    have hlast : lastTag p (z :: zs) = lastTag z zs := by
      unfold lastTag
      rw [List.getLastD_cons]
    rw [hlast, List.length_cons]
    have harith : s + 1 + zs.length = s + (zs.length + 1) := by omega
    rw [harith]
    ring

theorem lastTag_concat (p : Fin n) (ys : List (Fin n)) (y : Fin n) :
    lastTag p (ys ++ [y]) = y := by
  unfold lastTag
  rw [List.getLastD_concat]

theorem vitTrace_length (L t : ℕ) (i : Fin n) :
    (vitTrace trans startIdx norm unary L t i).length = t := by
  induction t generalizing i with
  | zero => rfl
  | succ t ih =>
    rw [vitTrace, List.length_append, ih, List.length_singleton]

theorem vitTrace_lastTag (L t : ℕ) (i : Fin n) :
    lastTag (vitTraceInit trans startIdx norm unary L t i)
      (vitTrace trans startIdx norm unary L t i) = i := by
  cases t with
  | zero =>
    rw [vitTrace, vitTraceInit, lastTag, List.getLastD_nil]
  | succ t =>
    rw [vitTrace, lastTag_concat]

theorem vitTrace_attains (L : ℕ) :
    ∀ t, t ≤ L → ∀ i,
      vitInit startIdx norm (vitTraceInit trans startIdx norm unary L t i)
        + chainPre trans unary
            (vitTraceInit trans startIdx norm unary L t i) 0
            (vitTrace trans startIdx norm unary L t i)
      = vitAlpha trans startIdx norm unary L t i := by
  intro t
  induction t with
  | zero =>
    intro _ i
    rw [vitTrace, vitTraceInit, chainPre, add_zero]
    rfl
  | succ t ih =>
    intro h i
    have ht : t < L := h
    have hbp := vitBp trans startIdx norm unary L t i
    simp only [vitAlpha, if_pos ht]
    rw [vitTrace, vitTraceInit]
    rw [chainPre_concat]
    rw [vitTrace_lastTag, vitTrace_length, Nat.zero_add]
    have hmax : maxTag startIdx
        (fun j => vitAlpha trans startIdx norm unary L t j + trans i j)
        = vitAlpha trans startIdx norm unary L t
            (vitBp trans startIdx norm unary L t i)
          + trans i (vitBp trans startIdx norm unary L t i) :=
      (argmaxTag_achieves startIdx _).symm
    rw [hmax, ← ih (le_of_lt ht) (vitBp trans startIdx norm unary L t i)]
    ring

theorem vitAlpha_bounds (L : ℕ) :
    ∀ t, t ≤ L → ∀ (j : Fin n) (ys : List (Fin n)), ys.length = t →
      vitInit startIdx norm j + chainPre trans unary j 0 ys
        ≤ vitAlpha trans startIdx norm unary L t (lastTag j ys) := by
  intro t
  induction t with
  | zero =>
    intro _ j ys hlen
    have hnil : ys = [] := List.eq_nil_of_length_eq_zero hlen
    subst hnil
    rw [chainPre, add_zero]
    exact le_of_eq rfl
  | succ t ih =>
    intro h j ys hlen
    have ht : t < L := h
    rcases List.eq_nil_or_concat ys with hnil | ⟨zs, y, hcat⟩
    · rw [hnil] at hlen
      exact absurd hlen (by simp)
    · rw [List.concat_eq_append] at hcat
      subst hcat
      have hzs : zs.length = t := by
        rw [List.length_append, List.length_singleton] at hlen
        omega
      rw [lastTag_concat, chainPre_concat, Nat.zero_add, hzs]
      simp only [vitAlpha, if_pos ht]
      have hstep := ih (le_of_lt ht) j zs hzs
      have hle : vitAlpha trans startIdx norm unary L t (lastTag j zs)
            + trans y (lastTag j zs)
          ≤ maxTag startIdx (fun j' =>
              vitAlpha trans startIdx norm unary L t j' + trans y j') :=
        le_maxTag startIdx
          (fun j' => vitAlpha trans startIdx norm unary L t j' + trans y j')
          (lastTag j zs)
      linarith

end ViterbiCore

section ViterbiWalk

variable {n : ℕ} (trans : Fin n → Fin n → ℝ) (startIdx endIdx : Fin n)
    (norm : Bool) (unary : ℕ → Fin n → ℝ) (L T : ℕ)

theorem vitWalk_hold (hLT : L ≤ T) :
    ∀ k, k ≤ T - L → vitWalk trans startIdx endIdx norm unary L T k
      = vitWalk trans startIdx endIdx norm unary L T 0 := by
  intro k
  induction k with
  | zero => intro _; rfl
  | succ k ih =>
    intro hk
    conv_lhs => rw [vitWalk]
    rw [if_neg (by omega)]
    exact ih (by omega)

theorem vitWalk_step (hLT : L ≤ T) {t : ℕ} (ht : t + 1 ≤ L - 1) :
    vitWalk trans startIdx endIdx norm unary L T (T - 1 - t)
      = vitBp trans startIdx norm unary L (t + 1)
          (vitWalk trans startIdx endIdx norm unary L T (T - 1 - (t + 1))) := by
  have h1 : 1 ≤ L := by omega
  have hidx : T - 1 - t = (T - 2 - t) + 1 := by omega
  rw [hidx, vitWalk, if_pos (by omega)]
  have e1 : T - 1 - (T - 2 - t) = t + 1 := by omega
  have e2 : T - 2 - t = T - 1 - (t + 1) := by omega
  rw [e1, e2]

theorem vitWalk_last (h1 : 1 ≤ L) (hLT : L ≤ T) :
    vitWalk trans startIdx endIdx norm unary L T (T - 1 - (L - 1))
      = vitLast trans startIdx endIdx norm unary L T := by
  have he : T - 1 - (L - 1) = T - L := by omega
  rw [he,
    vitWalk_hold trans startIdx endIdx norm unary L T hLT (T - L) le_rfl]
  rfl

theorem vitPath_eq_map (h1 : 1 ≤ L) (hLT : L ≤ T) :
    vitPath trans startIdx endIdx norm unary L T
      = (List.range L).map
          (fun t => vitWalk trans startIdx endIdx norm unary L T
            (T - 1 - t)) := by
  unfold vitPath
  rw [List.range_succ, List.map_append, List.map_cons, List.map_nil,
    List.dropLast_concat]
  apply List.ext_get
  · rw [List.length_take, List.length_reverse, List.length_map,
      List.length_range, List.length_map, List.length_range]
    omega
  · intro k hk1 hk2
    have hkL : k < L := by
      rw [List.length_map, List.length_range] at hk2
      exact hk2
    have hkT : k < T := by omega
    simp only [List.get_eq_getElem, List.getElem_take, List.getElem_reverse,
      List.getElem_map, List.getElem_range, List.length_map,
      List.length_range]

theorem vitTrace_eq_map (h1 : 1 ≤ L) (hLT : L ≤ T) :
    ∀ k, k ≤ L - 1 →
      vitTrace trans startIdx norm unary L (k + 1)
          (vitWalk trans startIdx endIdx norm unary L T (T - 1 - k))
        = (List.range (k + 1)).map
            (fun t => vitWalk trans startIdx endIdx norm unary L T
              (T - 1 - t)) := by
  intro k
  induction k with
  | zero =>
    intro _
    rw [vitTrace, vitTrace, List.nil_append, List.range_succ 0,
      List.range_zero, List.nil_append, List.map_cons, List.map_nil]
  | succ k ih =>
    intro hk
    rw [vitTrace,
      ← vitWalk_step trans startIdx endIdx norm unary L T hLT hk,
      ih (by omega), List.range_succ (k + 1), List.map_append, List.map_cons,
      List.map_nil]

theorem vitPath_eq_trace (h1 : 1 ≤ L) (hLT : L ≤ T) :
    vitPath trans startIdx endIdx norm unary L T
      = vitTrace trans startIdx norm unary L L
          (vitLast trans startIdx endIdx norm unary L T) := by
  rw [vitPath_eq_map trans startIdx endIdx norm unary L T h1 hLT]
  have hmap := vitTrace_eq_map trans startIdx endIdx norm unary L T h1 hLT
    (L - 1) le_rfl
  rw [show L - 1 + 1 = L from by omega,
    vitWalk_last trans startIdx endIdx norm unary L T h1 hLT] at hmap
  exact hmap.symm

theorem vitScore_freeze (hLT : L ≤ T) :
    vitScore trans startIdx endIdx norm unary L T
      = maxTag startIdx (fun i =>
          vitAlpha trans startIdx norm unary L L i + trans endIdx i) := by
  unfold vitScore
  rw [vitAlpha_freeze trans startIdx norm unary L hLT]

theorem vitLast_achieves (hLT : L ≤ T) :
    vitAlpha trans startIdx norm unary L L
        (vitLast trans startIdx endIdx norm unary L T)
      + trans endIdx (vitLast trans startIdx endIdx norm unary L T)
      = vitScore trans startIdx endIdx norm unary L T := by
  unfold vitLast vitScore
  rw [vitAlpha_freeze trans startIdx norm unary L hLT]
  exact argmaxTag_achieves startIdx
    (fun i => vitAlpha trans startIdx norm unary L L i + trans endIdx i)

end ViterbiWalk

theorem ofFn_get_of_length {α : Type} {L : ℕ} (l : List α)
    (h : l.length = L) :
    List.ofFn (fun t : Fin L => l.get (Fin.cast h.symm t)) = l := by
  subst h
  exact List.ofFn_get l

section ViterbiMax

variable {n : ℕ} (trans : Fin n → Fin n → ℝ) (startIdx endIdx : Fin n)
    (norm : Bool) (unary : ℕ → Fin n → ℝ) (L T : ℕ)

theorem vitScore_attained (h1 : 1 ≤ L) (hLT : L ≤ T) :
    vitInit startIdx norm
        (vitTraceInit trans startIdx norm unary L L
          (vitLast trans startIdx endIdx norm unary L T))
      + chainScore trans endIdx unary
          (vitTraceInit trans startIdx norm unary L L
            (vitLast trans startIdx endIdx norm unary L T)) 0
          (vitPath trans startIdx endIdx norm unary L T)
      = vitScore trans startIdx endIdx norm unary L T := by
  rw [vitPath_eq_trace trans startIdx endIdx norm unary L T h1 hLT]
  rw [chainScore_eq_chainPre, vitTrace_lastTag]
  have hattain := vitTrace_attains trans startIdx norm unary L L le_rfl
    (vitLast trans startIdx endIdx norm unary L T)
  have hach := vitLast_achieves trans startIdx endIdx norm unary L T hLT
  linarith

theorem vitScore_upper (hLT : L ≤ T) (j : Fin n) (g : Fin L → Fin n) :
    vitInit startIdx norm j
        + chainScore trans endIdx unary j 0 (List.ofFn g)
      ≤ vitScore trans startIdx endIdx norm unary L T := by
  rw [chainScore_eq_chainPre]
  have hb := vitAlpha_bounds trans startIdx norm unary L L le_rfl j
    (List.ofFn g) (List.length_ofFn g)
  have hm : vitAlpha trans startIdx norm unary L L (lastTag j (List.ofFn g))
        + trans endIdx (lastTag j (List.ofFn g))
      ≤ maxTag startIdx (fun i =>
          vitAlpha trans startIdx norm unary L L i + trans endIdx i) :=
    le_maxTag startIdx
      (fun i => vitAlpha trans startIdx norm unary L L i + trans endIdx i)
      (lastTag j (List.ofFn g))
  rw [vitScore_freeze trans startIdx endIdx norm unary L T hLT]
  linarith

theorem vitScore_is_max (h1 : 1 ≤ L) (hLT : L ≤ T) :
    vitScore trans startIdx endIdx norm unary L T
      = Finset.univ.sup'
          ⟨(startIdx, fun _ => startIdx), Finset.mem_univ _⟩
          (fun jf : Fin n × (Fin L → Fin n) =>
            vitInit startIdx norm jf.1
              + chainScore trans endIdx unary jf.1 0 (List.ofFn jf.2))
    ∧ ∃ j, vitInit startIdx norm j
          + chainScore trans endIdx unary j 0
              (vitPath trans startIdx endIdx norm unary L T)
        = vitScore trans startIdx endIdx norm unary L T := by
  constructor
  · apply le_antisymm
    · have hlen : (vitTrace trans startIdx norm unary L L
          (vitLast trans startIdx endIdx norm unary L T)).length = L :=
        vitTrace_length trans startIdx norm unary L L _
      have hofn := ofFn_get_of_length _ hlen
      have hpair := Finset.le_sup'
        (f := fun jf : Fin n × (Fin L → Fin n) =>
          vitInit startIdx norm jf.1
            + chainScore trans endIdx unary jf.1 0 (List.ofFn jf.2))
        (Finset.mem_univ
          (vitTraceInit trans startIdx norm unary L L
            (vitLast trans startIdx endIdx norm unary L T),
           fun t : Fin L => (vitTrace trans startIdx norm unary L L
            (vitLast trans startIdx endIdx norm unary L T)).get
              (Fin.cast hlen.symm t)))
      rw [show List.ofFn (fun t : Fin L => (vitTrace trans startIdx norm
          unary L L (vitLast trans startIdx endIdx norm unary L T)).get
            (Fin.cast hlen.symm t))
          = vitTrace trans startIdx norm unary L L
              (vitLast trans startIdx endIdx norm unary L T)
        from hofn] at hpair
      have hatt := vitScore_attained trans startIdx endIdx norm unary L T h1
        hLT
      rw [vitPath_eq_trace trans startIdx endIdx norm unary L T h1 hLT]
        at hatt
      rw [← hatt]
      exact hpair
    · exact Finset.sup'_le _ _ fun jf _ =>
        vitScore_upper trans startIdx endIdx norm unary L T hLT jf.1 jf.2
  · exact ⟨vitTraceInit trans startIdx norm unary L L
      (vitLast trans startIdx endIdx norm unary L T),
      vitScore_attained trans startIdx endIdx norm unary L T h1 hLT⟩

end ViterbiMax

theorem maxTag_two (i0 : Fin 2) (f : Fin 2 → ℝ) :
    maxTag i0 f = max (f 0) (f 1) := by
  apply le_antisymm
  · refine maxTag_le i0 f fun j => ?_
    fin_cases j
    · exact le_max_left _ _
    · exact le_max_right _ _
  · exact max_le (le_maxTag i0 f 0) (le_maxTag i0 f 1)

section ClaimViterbi

/-- C1 (amended): for every batch element `b` with `1 ≤ lengths b ≤ T`, the
score returned by the Viterbi decoder is the maximum, over all pairs of a
virtual initial tag `j` and a tag sequence of length `lengths b`, of
`alphaInit j` plus the total path score from `j`, and the decoded path
attains that maximum together with its best virtual initial tag.  The claim
as stated — maximizing only over sequences with virtual predecessor START at
initial score `0` — fails because the sentinel `-10000` is finite and can be
overcome by large transition scores (see the counterexample). -/
theorem claim_C1_decode_amended {n B : ℕ} (trans : Fin n → Fin n → ℝ)
    (startIdx endIdx : Fin n) (lengths : Fin B → ℕ)
    (unary : ℕ → Fin B → Fin n → ℝ) (T : ℕ) (b : Fin B)
    (h1 : 1 ≤ lengths b) (hLT : lengths b ≤ T) :
    vitScoreB trans startIdx endIdx false lengths unary T b
      = Finset.univ.sup'
          ⟨(startIdx, fun _ => startIdx), Finset.mem_univ _⟩
          (fun jf : Fin n × (Fin (lengths b) → Fin n) =>
            alphaInit startIdx jf.1
              + chainScore trans endIdx (fun t => unary t b) jf.1 0
                  (List.ofFn jf.2))
    ∧ ∃ j, alphaInit startIdx j
          + chainScore trans endIdx (fun t => unary t b) j 0
              (vitPathsB trans startIdx endIdx false lengths unary T b)
        = vitScoreB trans startIdx endIdx false lengths unary T b := by
  have hmain := vitScore_is_max trans startIdx endIdx false
    (fun t => unary t b) (lengths b) T h1 hLT
  rw [vitScoreB_proj, vitPathsB_proj]
  exact hmain

/-- Witness for the amended C1 at a concrete input: batch of one, two tags,
one time step, all scores zero. -/
theorem claim_C1_decode_amended_witness :
    1 ≤ lengthsOne1 0 ∧ lengthsOne1 0 ≤ 1 ∧
    (vitScoreB transZero2 0 1 false lengthsOne1 unaryZero1 1 0
        = Finset.univ.sup'
            ⟨(0, fun _ => 0), Finset.mem_univ _⟩
            (fun jf : Fin 2 × (Fin (lengthsOne1 0) → Fin 2) =>
              alphaInit (0 : Fin 2) jf.1
                + chainScore transZero2 1 (fun t => unaryZero1 t 0) jf.1 0
                    (List.ofFn jf.2))
      ∧ ∃ j, alphaInit (0 : Fin 2) j
            + chainScore transZero2 1 (fun t => unaryZero1 t 0) j 0
                (vitPathsB transZero2 0 1 false lengthsOne1 unaryZero1 1 0)
          = vitScoreB transZero2 0 1 false lengthsOne1 unaryZero1 1 0) :=
  ⟨by decide, by decide,
    claim_C1_decode_amended transZero2 0 1 lengthsOne1 unaryZero1 1 0
      (by decide) (by decide)⟩

/-- C1 as stated is false: with two tags (start `0`, end `1`), one time
step, length one, zero emissions, and a transition matrix whose only nonzero
entry is `transition(0, 1) = 20000`, the decoder returns path score `10000`
(reached through the sentinel-initialized non-start entry of the initial
alpha vector), while the maximum total path score over the two genuine
length-one tag sequences from START is `0`. -/
theorem claim_C1_counterexample :
    vitScoreB transBig2 0 1 false lengthsOne1 unaryZero1 1 0
      ≠ Finset.univ.sup' ⟨fun _ => 0, Finset.mem_univ _⟩
          (fun f : Fin 1 → Fin 2 =>
            chainScore transBig2 1 (fun t => unaryZero1 t 0) 0 0
              (List.ofFn f)) := by
  have e00 : transBig2 0 0 = 0 := by norm_num [transBig2]
  have e01 : transBig2 0 1 = 20000 := by norm_num [transBig2]
  have e10 : transBig2 1 0 = 0 := by norm_num [transBig2]
  have e11 : transBig2 1 1 = 0 := by norm_num [transBig2]
  have ha0 : alphaInit (0 : Fin 2) 0 = 0 := if_pos rfl
  have ha1 : alphaInit (0 : Fin 2) 1 = sentinel := if_neg (by decide)
  have hsent : sentinel = -10000 := rfl
  have hproj : vitScoreB transBig2 0 1 false lengthsOne1 unaryZero1 1 0
      = vitScore transBig2 0 1 false (fun t => unaryZero1 t 0) 1 1 :=
    vitScoreB_proj transBig2 0 1 false lengthsOne1 unaryZero1 1 0
  have hA0 : vitAlpha transBig2 0 false (fun t => unaryZero1 t 0) 1 1 0
      = 10000 := by
    have h : vitAlpha transBig2 0 false (fun t => unaryZero1 t 0) 1 1 0
        = maxTag (0 : Fin 2)
            (fun j => alphaInit (0 : Fin 2) j + transBig2 0 j) + (0 : ℝ) :=
      rfl
    rw [h, maxTag_two]
    show max (alphaInit (0 : Fin 2) 0 + transBig2 0 0)
        (alphaInit (0 : Fin 2) 1 + transBig2 0 1) + (0 : ℝ) = 10000
    rw [ha0, ha1, e00, e01, hsent]
    rw [show (0 : ℝ) + 0 = 0 from by norm_num,
      show (-10000 : ℝ) + 20000 = 10000 from by norm_num,
      max_eq_right (by norm_num : (0 : ℝ) ≤ 10000)]
    norm_num
  have hA1 : vitAlpha transBig2 0 false (fun t => unaryZero1 t 0) 1 1 1
      = 0 := by
    have h : vitAlpha transBig2 0 false (fun t => unaryZero1 t 0) 1 1 1
        = maxTag (0 : Fin 2)
            (fun j => alphaInit (0 : Fin 2) j + transBig2 1 j) + (0 : ℝ) :=
      rfl
    rw [h, maxTag_two]
    show max (alphaInit (0 : Fin 2) 0 + transBig2 1 0)
        (alphaInit (0 : Fin 2) 1 + transBig2 1 1) + (0 : ℝ) = 0
    rw [ha0, ha1, e10, e11, hsent]
    rw [show (0 : ℝ) + 0 = 0 from by norm_num,
      show (-10000 : ℝ) + 0 = -10000 from by norm_num,
      max_eq_left (by norm_num : (-10000 : ℝ) ≤ 0)]
    norm_num
  have hval : vitScore transBig2 0 1 false (fun t => unaryZero1 t 0) 1 1
      = 10000 := by
    have hv : vitScore transBig2 0 1 false (fun t => unaryZero1 t 0) 1 1
        = maxTag (0 : Fin 2)
            (fun i => vitAlpha transBig2 0 false (fun t => unaryZero1 t 0)
              1 1 i + transBig2 1 i) := rfl
    rw [hv, maxTag_two]
    show max (vitAlpha transBig2 0 false (fun t => unaryZero1 t 0) 1 1 0
        + transBig2 1 0)
      (vitAlpha transBig2 0 false (fun t => unaryZero1 t 0) 1 1 1
        + transBig2 1 1) = 10000
    rw [hA0, hA1, e10, e11]
    rw [show (10000 : ℝ) + 0 = 10000 from by norm_num,
      show (0 : ℝ) + 0 = 0 from by norm_num]
    exact max_eq_left (by norm_num)
  have hub : Finset.univ.sup' ⟨fun _ => 0, Finset.mem_univ _⟩
      (fun f : Fin 1 → Fin 2 =>
        chainScore transBig2 1 (fun t => unaryZero1 t 0) 0 0
          (List.ofFn f)) ≤ 0 := by
    refine Finset.sup'_le _ _ fun f _ => ?_
    show chainScore transBig2 1 (fun t => unaryZero1 t 0) 0 0
      (List.ofFn f) ≤ 0
    have hofn : List.ofFn f = [f 0] := by simp
    rw [hofn, chainScore, chainScore]
    have hf0 : transBig2 (f 0) 0 = 0 :=
      if_neg (fun hc => absurd hc.2 (by decide))
    have hf1 : transBig2 1 (f 0) = 0 :=
      if_neg (fun hc => absurd hc.1 (by decide))
    rw [hf0, hf1]
    show (0 : ℝ) + (fun t => unaryZero1 t 0) 0 (f 0) + 0 ≤ 0
    norm_num [unaryZero1]
  rw [hproj, hval]
  intro heq
  rw [← heq] at hub
  exact absurd hub (by norm_num)

/-- C6: for every valid input (`1 ≤ lengths b ≤ T`), the decoded tag
sequence for element `b` has exactly `lengths b` entries. -/
theorem claim_C6_path_length {n B : ℕ} (trans : Fin n → Fin n → ℝ)
    (startIdx endIdx : Fin n) (lengths : Fin B → ℕ)
    (unary : ℕ → Fin B → Fin n → ℝ) (T : ℕ) (b : Fin B)
    (h1 : 1 ≤ lengths b) (hLT : lengths b ≤ T) :
    (vitPathsB trans startIdx endIdx false lengths unary T b).length
      = lengths b := by
  rw [vitPathsB_proj]
  unfold vitPath
  rw [List.length_take, List.length_reverse, List.length_dropLast,
    List.length_map, List.length_range]
  omega

/-- Witness for C6 at a concrete input: batch of one, two tags, one time
step, all scores zero. -/
theorem claim_C6_path_length_witness :
    1 ≤ lengthsOne1 0 ∧ lengthsOne1 0 ≤ 1 ∧
    (vitPathsB transZero2 0 1 false lengthsOne1 unaryZero1 1 0).length
      = lengthsOne1 0 :=
  ⟨by decide, by decide,
    claim_C6_path_length transZero2 0 1 lengthsOne1 unaryZero1 1 0
      (by decide) (by decide)⟩

/-- C10: every tag index in every path returned by the decoder lies in
`[0, n)`: the decoded tags are arg-max results and back-pointer lookups,
all of which are tag indices. -/
theorem claim_C10_decoded_tags_in_range {n B : ℕ} (trans : Fin n → Fin n → ℝ)
    (startIdx endIdx : Fin n) (lengths : Fin B → ℕ)
    (unary : ℕ → Fin B → Fin n → ℝ) (T : ℕ) (b : Fin B)
    (k : Fin (vitPathsB trans startIdx endIdx false lengths unary T
      b).length) :
    ((vitPathsB trans startIdx endIdx false lengths unary T b).get k).val
      < n :=
  ((vitPathsB trans startIdx endIdx false lengths unary T b).get k).isLt

end ClaimViterbi

section Congruence

variable {n : ℕ} (trans : Fin n → Fin n → ℝ) (startIdx endIdx : Fin n)
    (norm : Bool)

theorem fwdAlpha_congr (u u' : ℕ → Fin n → ℝ) (L : ℕ)
    (hagree : ∀ t < L, u t = u' t) :
    ∀ t, t ≤ L →
      fwdAlpha trans startIdx u L t = fwdAlpha trans startIdx u' L t := by
  intro t
  induction t with
  | zero => intro _; rfl
  | succ t ih =>
    intro h
    funext i
    simp only [fwdAlpha, if_pos (show t < L from h)]
    rw [ih (by omega), hagree t (by omega)]

theorem fwdScore_congr (u u' : ℕ → Fin n → ℝ) (L T T' : ℕ)
    (hagree : ∀ t < L, u t = u' t) (hT : L ≤ T) (hT' : L ≤ T') :
    fwdScore trans startIdx endIdx u L T
      = fwdScore trans startIdx endIdx u' L T' := by
  unfold fwdScore
  rw [fwdAlpha_freeze trans startIdx u L hT,
    fwdAlpha_freeze trans startIdx u' L hT',
    fwdAlpha_congr trans startIdx u u' L hagree L le_rfl]

theorem vitAlpha_congr (u u' : ℕ → Fin n → ℝ) (L : ℕ)
    (hagree : ∀ t < L, u t = u' t) :
    ∀ t, t ≤ L →
      vitAlpha trans startIdx norm u L t
        = vitAlpha trans startIdx norm u' L t := by
  intro t
  induction t with
  | zero => intro _; rfl
  | succ t ih =>
    intro h
    funext i
    simp only [vitAlpha, if_pos (show t < L from h)]
    rw [ih (by omega), hagree t (by omega)]

theorem vitBp_congr (u u' : ℕ → Fin n → ℝ) (L : ℕ)
    (hagree : ∀ t < L, u t = u' t) (t : ℕ) (ht : t ≤ L) (tag : Fin n) :
    vitBp trans startIdx norm u L t tag
      = vitBp trans startIdx norm u' L t tag := by
  unfold vitBp
  rw [vitAlpha_congr trans startIdx norm u u' L hagree t ht]

theorem vitLast_congr (u u' : ℕ → Fin n → ℝ) (L T T' : ℕ)
    (hagree : ∀ t < L, u t = u' t) (hT : L ≤ T) (hT' : L ≤ T') :
    vitLast trans startIdx endIdx norm u L T
      = vitLast trans startIdx endIdx norm u' L T' := by
  unfold vitLast
  rw [vitAlpha_freeze trans startIdx norm u L hT,
    vitAlpha_freeze trans startIdx norm u' L hT',
    vitAlpha_congr trans startIdx norm u u' L hagree L le_rfl]

theorem vitScore_congr (u u' : ℕ → Fin n → ℝ) (L T T' : ℕ)
    (hagree : ∀ t < L, u t = u' t) (hT : L ≤ T) (hT' : L ≤ T') :
    vitScore trans startIdx endIdx norm u L T
      = vitScore trans startIdx endIdx norm u' L T' := by
  unfold vitScore
  rw [vitAlpha_freeze trans startIdx norm u L hT,
    vitAlpha_freeze trans startIdx norm u' L hT',
    vitAlpha_congr trans startIdx norm u u' L hagree L le_rfl]

theorem vitTrace_congr (u u' : ℕ → Fin n → ℝ) (L : ℕ)
    (hagree : ∀ t < L, u t = u' t) :
    ∀ t, t ≤ L → ∀ i,
      vitTrace trans startIdx norm u L t i
        = vitTrace trans startIdx norm u' L t i := by
  intro t
  induction t with
  | zero => intro _ i; rfl
  | succ t ih =>
    intro h i
    rw [vitTrace, vitTrace,
      vitBp_congr trans startIdx norm u u' L hagree t (by omega) i,
      ih (by omega) (vitBp trans startIdx norm u' L t i)]

theorem vitPath_congr (u u' : ℕ → Fin n → ℝ) (L T T' : ℕ)
    (hagree : ∀ t < L, u t = u' t) (h1 : 1 ≤ L) (hT : L ≤ T)
    (hT' : L ≤ T') :
    vitPath trans startIdx endIdx norm u L T
      = vitPath trans startIdx endIdx norm u' L T' := by
  rw [vitPath_eq_trace trans startIdx endIdx norm u L T h1 hT,
    vitPath_eq_trace trans startIdx endIdx norm u' L T' h1 hT',
    vitTrace_congr trans startIdx norm u u' L hagree L le_rfl
      (vitLast trans startIdx endIdx norm u L T),
    vitLast_congr trans startIdx endIdx norm u u' L T T' hagree hT hT']

end Congruence

section ClaimIndependence

/-- C5: the forward score and the decoded path and path score of a batch
element depend only on that element's length and on its emission rows below
the length: any two batched calls (possibly with different batch sizes,
padded widths, padding emission values, and other batch elements) agree on
that element as long as the element's length and its first `length` emission
rows agree.  Instantiating the second call with batch size one and padded
width `T' = length` gives the spec's batching scenario. -/
theorem claim_C5_batching_independence {n B B' : ℕ}
    (trans : Fin n → Fin n → ℝ) (startIdx endIdx : Fin n)
    (lengths : Fin B → ℕ) (lengths' : Fin B' → ℕ)
    (unary : ℕ → Fin B → Fin n → ℝ) (unary' : ℕ → Fin B' → Fin n → ℝ)
    (T T' : ℕ) (b : Fin B) (b' : Fin B') (hlen : lengths' b' = lengths b)
    (h1 : 1 ≤ lengths b) (hT : lengths b ≤ T) (hT' : lengths b ≤ T')
    (hagree : ∀ t < lengths b, ∀ i, unary t b i = unary' t b' i) :
    fwdScoreB trans startIdx endIdx lengths unary T b
        = fwdScoreB trans startIdx endIdx lengths' unary' T' b'
      ∧ vitScoreB trans startIdx endIdx false lengths unary T b
        = vitScoreB trans startIdx endIdx false lengths' unary' T' b'
      ∧ vitPathsB trans startIdx endIdx false lengths unary T b
        = vitPathsB trans startIdx endIdx false lengths' unary' T' b' := by
  have hfun : ∀ t < lengths b,
      (fun i => unary t b i) = (fun i => unary' t b' i) :=
    fun t ht => funext (hagree t ht)
  rw [fwdScoreB_proj, fwdScoreB_proj, vitScoreB_proj, vitScoreB_proj,
    vitPathsB_proj, vitPathsB_proj, hlen]
  exact ⟨fwdScore_congr trans startIdx endIdx (fun t => unary t b)
      (fun t => unary' t b') (lengths b) T T' hfun hT hT',
    vitScore_congr trans startIdx endIdx false (fun t => unary t b)
      (fun t => unary' t b') (lengths b) T T' hfun hT hT',
    vitPath_congr trans startIdx endIdx false (fun t => unary t b)
      (fun t => unary' t b') (lengths b) T T' hfun h1 hT hT'⟩

/-- Witness for C5: the spec's concrete scenario — a batch of two with
lengths `[1, 3]` and padded width `3`, against the length-one element run
alone with padded width `1`. -/
theorem claim_C5_batching_independence_witness :
    (lengthsOne1 0 = lengthsTwo 0 ∧ 1 ≤ lengthsTwo 0 ∧ lengthsTwo 0 ≤ 3
      ∧ lengthsTwo 0 ≤ 1
      ∧ ∀ t < lengthsTwo 0, ∀ i : Fin 2, unaryZero2 t 0 i = unaryZero1 t 0 i)
    ∧ (fwdScoreB transZero2 0 1 lengthsTwo unaryZero2 3 0
          = fwdScoreB transZero2 0 1 lengthsOne1 unaryZero1 1 0
        ∧ vitScoreB transZero2 0 1 false lengthsTwo unaryZero2 3 0
          = vitScoreB transZero2 0 1 false lengthsOne1 unaryZero1 1 0
        ∧ vitPathsB transZero2 0 1 false lengthsTwo unaryZero2 3 0
          = vitPathsB transZero2 0 1 false lengthsOne1 unaryZero1 1 0) :=
  ⟨⟨by decide, by decide, by decide, by decide, fun _ _ _ => rfl⟩,
    claim_C5_batching_independence transZero2 0 1 lengthsTwo lengthsOne1
      unaryZero2 unaryZero1 3 1 0 0 (by decide) (by decide) (by decide)
      (by decide) (fun _ _ _ => rfl)⟩

/-- C8: the gold-path score (and hence the loss) of a batch element does not
depend on the gold tag values stored at padded positions `t ≥ lengths b`:
any two gold tag tensors that agree on element `b` below its length yield
the same `score_sentence` and `neg_log_loss` results for `b`. -/
theorem claim_C8_gold_padding_independent {n B : ℕ}
    (trans : Fin n → Fin n → ℝ) (startIdx endIdx : Fin n)
    (lengths : Fin B → ℕ) (unary : ℕ → Fin B → Fin n → ℝ)
    (tags tags' : ℕ → Fin B → Fin n) (T : ℕ) (b : Fin B)
    (hagree : ∀ t < lengths b, tags t b = tags' t b) :
    scoreSentenceB trans startIdx endIdx lengths unary tags T b
        = scoreSentenceB trans startIdx endIdx lengths unary tags' T b
      ∧ negLogLossB trans startIdx endIdx lengths unary tags T b
        = negLogLossB trans startIdx endIdx lengths unary tags' T b := by
  have hcat : ∀ t ≤ lengths b,
      tagsCat startIdx tags t b = tagsCat startIdx tags' t b := by
    intro t ht
    unfold tagsCat
    by_cases h0 : t = 0
    · rw [if_pos h0, if_pos h0]
    · rw [if_neg h0, if_neg h0, hagree (t - 1) (by omega)]
  have hscore : scoreSentenceB trans startIdx endIdx lengths unary tags T b
      = scoreSentenceB trans startIdx endIdx lengths unary tags' T b := by
    unfold scoreSentenceB
    congr 1
    · refine Finset.sum_congr rfl fun t _ => ?_
      by_cases hm : t < lengths b
      · have hmask : seqMask lengths t b = true := by simp [seqMask, hm]
        rw [if_pos hmask, if_pos hmask, hcat (t + 1) (by omega),
          hcat t (by omega)]
      · have hmask : ¬ seqMask lengths t b = true := by simp [seqMask, hm]
        rw [if_neg hmask, if_neg hmask]
    · rw [hcat (lengths b) le_rfl]
  exact ⟨hscore, by unfold negLogLossB; rw [hscore]⟩

/-- Witness for C8 at a concrete input: two gold tag tensors that agree at
step `0` and differ at every padded position. -/
theorem claim_C8_gold_padding_independent_witness :
    (∀ t < lengthsOne1 0, tagsZero1 t 0 = tagsPad1 t 0) ∧
    (scoreSentenceB transZero2 0 1 lengthsOne1 unaryZero1 tagsZero1 3 0
        = scoreSentenceB transZero2 0 1 lengthsOne1 unaryZero1 tagsPad1 3 0
      ∧ negLogLossB transZero2 0 1 lengthsOne1 unaryZero1 tagsZero1 3 0
        = negLogLossB transZero2 0 1 lengthsOne1 unaryZero1 tagsPad1 3 0) :=
  ⟨fun t ht => by
      have h0 : t = 0 := by
        have : lengthsOne1 0 = 1 := rfl
        omega
      subst h0
      rfl,
    claim_C8_gold_padding_independent transZero2 0 1 lengthsOne1 unaryZero1
      tagsZero1 tagsPad1 3 0
      (fun t ht => by
        have h0 : t = 0 := by
          have : lengthsOne1 0 = 1 := rfl
          omega
        subst h0
        rfl)⟩

end ClaimIndependence

section ClaimObject

/-- C9: the scoring and decoding operations are reads: translated as state
transformers, their method bodies contain no assignment to the stored
transition parameter, mask, or any other field, so each returns its input
state unchanged, and the effective-transitions accessor is a pure function
of the state. -/
theorem claim_C9_operations_pure {n B : ℕ} (s : CRFState n)
    (unary : ℕ → Fin B → Fin n → ℝ) (tags : ℕ → Fin B → Fin n)
    (lengths : Fin B → ℕ) (T : ℕ) :
    (s.forwardOp unary lengths T).2 = s
      ∧ (s.scoreSentenceOp unary tags lengths T).2 = s
      ∧ (s.negLogLossOp unary tags lengths T).2 = s
      ∧ (s.decodeOp unary lengths T).2 = s
      ∧ s.transitionsOp.2 = s
      ∧ s.transitionsOp.1 = s.transitions :=
  ⟨rfl, rfl, rfl, rfl, rfl, rfl⟩

/-- C7 is violated by the code: `CRF.__init__` performs no validation, so
constructing with `n_tags = 1 < 2` and an end index `5` outside `[0, 1)`
does not fail; it succeeds and stores the invalid configuration unchanged.
The spec requires such configurations to be rejected at construction
time. -/
theorem claim_C7_init_accepts_invalid :
    crfInit 1 (0, 5) true false
      = { n_tags := 1, start_idx := 0, end_idx := 5, batch_first := true,
          has_mask := false }
    ∧ ((crfInit 1 (0, 5) true false).n_tags < 2
        ∧ ¬ (crfInit 1 (0, 5) true false).end_idx
            < (crfInit 1 (0, 5) true false).n_tags) :=
  ⟨rfl, by decide, by decide⟩

end ClaimObject

end

end BaselineCRF
